import Mathlib

/-!
Verification of the overlap-aggregation engine of the Group Availability
Planner (file `planner.py`).

Grid coordinates are `(day, hour)` pairs; the import layer parses both
fields with Python `int`, so coordinates are modelled as `Int × Int`.
Python dicts are modelled as association lists with the usual
update-in-place-or-append semantics (`dictSet`), which preserves
insertion order and key uniqueness exactly as CPython dicts do.
Python float comparisons against the dyadic thresholds 1.0, 0.75, 0.5,
0.25 and the `:.1f` formatting are modelled on exact rationals.
-/

namespace Planner

/-- Grid coordinate `(day, hour)`; valid cells have `day ∈ [0,6]` and
`hour ∈ [9,19]`, but the import layer can in principle produce any
integers. -/
abbrev Coord := Int × Int

/-- Constant `ScheduleCanvas.START_HOUR`. -/
def START_HOUR : Nat := 9

/-- Constant `ScheduleCanvas.END_HOUR`; the last slot is 19:00 - 20:00. -/
def END_HOUR : Nat := 20

/-- Constant `ScheduleCanvas.DAYS`. -/
def DAYS : List String :=
  ["Monday", "Tuesday", "Wednesday", "Thursday", "Friday", "Saturday", "Sunday"]

/-- Coordinates that lie on the drawn 7 x 11 grid. -/
def validCoord (c : Coord) : Prop :=
  0 ≤ c.1 ∧ c.1 ≤ 6 ∧ 9 ≤ c.2 ∧ c.2 ≤ 19

instance : DecidablePred validCoord := fun c =>
  inferInstanceAs (Decidable (0 ≤ c.1 ∧ c.1 ≤ 6 ∧ 9 ≤ c.2 ∧ c.2 ≤ 19))

/-- Registry of loaded schedules, `self.loaded_schedules`: an
insertion-ordered map from participant name to the list of parsed
`(day, hour)` pairs. -/
abbrev Registry := List (String × List Coord)

/-- Python dict assignment `d[k] = v`: update the binding in place if the
key is present, else append a new binding. -/
def dictSet (d : List (Coord × Nat)) (c : Coord) (v : Nat) : List (Coord × Nat) :=
  match d with
  | [] => [(c, v)]
  | p :: tl => if p.1 = c then (c, v) :: tl else p :: dictSet tl c v

/-- Python `d.get(c, 0)`. -/
def getCount (d : List (Coord × Nat)) (c : Coord) : Nat :=
  match d with
  | [] => 0
  | p :: tl => if p.1 = c then p.2 else getCount tl c

/-- Statement `overlap_counts[cell] = overlap_counts.get(cell, 0) + 1`. -/
def dictIncr (d : List (Coord × Nat)) (c : Coord) : List (Coord × Nat) :=
  dictSet d c (getCount d c + 1)

/-- Tally loop shared by `update_overlaps` and `export_analysis`: for
every loaded schedule, for every cell in it, increment its count. -/
def overlapCounts (reg : Registry) : List (Coord × Nat) :=
  reg.foldl (fun d p => p.2.foldl dictIncr d) []

/-- Pure core of `update_overlaps`: the per-cell counts together with
`total = len(self.loaded_schedules)`. -/
def computeTally (reg : Registry) : List (Coord × Nat) × Nat :=
  (overlapCounts reg, reg.length)

/-- Abstract count: total multiplicity of a cell over all loaded
schedules. -/
def tallyCount (reg : Registry) (c : Coord) : Nat :=
  (reg.map (fun p => p.2.count c)).sum

/-- Keys of the modelled dict, in insertion order. -/
def keysOf (d : List (Coord × Nat)) : List Coord := d.map Prod.fst

/-- Lexicographic order on `(day, hour)` - the order Python `sort()`
uses on these tuples. -/
def lexLe (a b : Coord) : Prop := a.1 < b.1 ∨ (a.1 = b.1 ∧ a.2 ≤ b.2)

/-- Strict lexicographic order on `(day, hour)`. -/
def lexLt (a b : Coord) : Prop := a.1 < b.1 ∨ (a.1 = b.1 ∧ a.2 < b.2)

instance : DecidableRel lexLe := fun a b =>
  inferInstanceAs (Decidable (a.1 < b.1 ∨ (a.1 = b.1 ∧ a.2 ≤ b.2)))

instance : DecidableRel lexLt := fun a b =>
  inferInstanceAs (Decidable (a.1 < b.1 ∨ (a.1 = b.1 ∧ a.2 < b.2)))

instance : IsTotal Coord lexLe := ⟨by intro a b; unfold lexLe; omega⟩

instance : IsTrans Coord lexLe := ⟨by intro a b c; unfold lexLe; omega⟩

/-- Python `list.sort()` on `(day, hour)` tuples. -/
def sortCoords (l : List Coord) : List Coord := List.insertionSort lexLe l

/-- Comprehension `[cell for cell, count in overlap_counts.items() if
count == total]` followed by `sort()`. -/
def findFullMatches (tally : List (Coord × Nat)) (total : Nat) : List Coord :=
  sortCoords ((tally.filter (fun p => p.2 == total)).map Prod.fst)

/-- Coverage bands named by the legend of the overlap tab; each band
stands for one colour of `get_color_for_count`. -/
inductive CoverageBand where
  | NONE
  | MINIMAL
  | LOW
  | MEDIUM
  | HIGH
  | FULL
deriving DecidableEq

/-- Method `OverlapCanvas.get_color_for_count`, with the float ratio and
its dyadic thresholds carried on exact rationals. -/
def get_color_for_count (count total : Nat) : String :=
  if count = 0 then "white"
  else if total = 0 then "white"
  else
    let ratio : ℚ := (count : ℚ) / (total : ℚ)
    if ratio = 1 then "#1B5E20"
    else if (3 / 4 : ℚ) ≤ ratio then "#4CAF50"
    else if (1 / 2 : ℚ) ≤ ratio then "#8BC34A"
    else if (1 / 4 : ℚ) ≤ ratio then "#FFEB3B"
    else "#FFCDD2"

/-- Band a colour stands for, read off the legend of the overlap tab. -/
def colorToBand (color : String) : CoverageBand :=
  if color = "#1B5E20" then .FULL
  else if color = "#4CAF50" then .HIGH
  else if color = "#8BC34A" then .MEDIUM
  else if color = "#FFEB3B" then .LOW
  else if color = "#FFCDD2" then .MINIMAL
  else .NONE

/-- Function `classifyCoverage` of the specification: the band of the
colour the code picks. -/
def classifyCoverage (count total : Nat) : CoverageBand :=
  colorToBand (get_color_for_count count total)

/-- Rounding to the nearest integer with ties to even - the rounding of
Python `:.1f` formatting, on exact rationals. -/
def roundHalfEven (x : ℚ) : ℤ :=
  let f : ℤ := ⌊x⌋
  if x - f < 1 / 2 then f
  else if (1 / 2 : ℚ) < x - f then f + 1
  else if f % 2 = 0 then f else f + 1

/-- Python `f"{pct:.1f}%"` for the (always nonnegative) percentage. -/
def formatPct (pct : ℚ) : String :=
  let tenths : Nat := (roundHalfEven (10 * pct)).toNat
  toString (tenths / 10) ++ "." ++ toString (tenths % 10) ++ "%"

/-- One data row of the analysis export. -/
structure AnalysisRow where
  day : Int
  day_name : String
  hour : Int
  available_count : Nat
  total_participants : Nat
  percentage : String
deriving DecidableEq

/-- Cells in the loop order of `export_analysis`: `for day in range(7):
for hour in range(START_HOUR, END_HOUR)`. -/
def allCells : List Coord :=
  (List.range 7).flatMap (fun day =>
    (List.range' START_HOUR (END_HOUR - START_HOUR)).map
      (fun hour => ((day : Int), (hour : Int))))

/-- Data rows written by `export_analysis` (header aside). -/
def analysisRows (reg : Registry) : List AnalysisRow :=
  let counts := overlapCounts reg
  let total := reg.length
  (List.range 7).flatMap (fun day =>
    (List.range' START_HOUR (END_HOUR - START_HOUR)).map (fun hour =>
      let count := getCount counts ((day : Int), (hour : Int))
      let pct : ℚ := if 0 < total then (count : ℚ) / (total : ℚ) * 100 else 0
      { day := (day : Int)
        day_name := DAYS.getD day ""
        hour := (hour : Int)
        available_count := count
        total_participants := total
        percentage := formatPct pct }))

/-- Method `export_analysis`: refuses with a warning when nothing is
loaded (`if not self.loaded_schedules`), else writes the rows. -/
def export_analysis (reg : Registry) : Option (List AnalysisRow) :=
  if reg.isEmpty then none else some (analysisRows reg)

/-- One data row of the per-participant schedule export. -/
structure SRow where
  username : String
  day : Int
  day_name : String
  hour : Int
deriving DecidableEq

/-- Data rows of `export_schedule`: one row `[username, day, DAYS[day],
hour]` per cell of `get_schedule_data()` (the sorted cell list). -/
def export_schedule (username : String) (scheduleData : List Coord) : List SRow :=
  scheduleData.map (fun c =>
    { username := username, day := c.1, day_name := DAYS.getD c.1.toNat "", hour := c.2 })

/-- Parsed data row of an interchange file: the optional `username`
column and the integer `day` and `hour` fields. -/
structure InRow where
  username : Option String
  day : Int
  hour : Int
deriving DecidableEq

/-- Interchange file: its base name and its parsed data rows. -/
structure InFile where
  basename : String
  rows : List InRow
deriving DecidableEq

/-- Per-file part of `load_schedules`: the username comes from the first
row (defaulting to the file base name), every row contributes its
`(day, hour)` pair, and the result is kept only under the
`if username and schedule` guard. -/
def parseFile (basename : String) (rows : List InRow) : Option (String × List Coord) :=
  match rows with
  | [] => none
  | r0 :: _ =>
    let username := r0.username.getD basename
    if username = "" then none
    else some (username, rows.map (fun r => (r.day, r.hour)))

/-- Python `f"{base_username}_{counter}"`. -/
def cand (base : String) (k : Nat) : String :=
  base ++ "_" ++ Nat.repr k

/-- Collision loop `while username in self.loaded_schedules`, with
explicit fuel; with fuel `keys.length + 1` the loop provably returns an
unused name, see the freshness lemmas below. -/
def freshLoop (keys : List String) (base : String) : Nat → Nat → String
  | _, 0 => base
  | counter, fuel + 1 =>
    if cand base counter ∈ keys then freshLoop keys base (counter + 1) fuel
    else cand base counter

/-- Name disambiguation of `load_schedules`. -/
def freshName (keys : List String) (name : String) : String :=
  if name ∈ keys then freshLoop keys name 1 (keys.length + 1) else name

/-- Insertion of one successfully parsed file into the registry,
`self.loaded_schedules[username] = schedule` after disambiguation. -/
def loadFile (reg : Registry) (f : InFile) : Registry :=
  match parseFile f.basename f.rows with
  | none => reg
  | some (name, sched) => reg ++ [(freshName (reg.map Prod.fst) name, sched)]

/-- Method `load_schedules` over a batch of already-parsed files. -/
def loadFiles (reg : Registry) (fs : List InFile) : Registry :=
  fs.foldl loadFile reg

/-- Drag mode picked on mouse down. -/
inductive DragMode where
  | select
  | deselect
deriving DecidableEq

/-- Method `on_mouse_down`: deselect when the pressed cell is already
selected, else select. -/
def mouseDownMode (s : Finset Coord) (cell : Coord) : DragMode :=
  if cell ∈ s then .deselect else .select

/-- Python `range(a, b + 1)` over integers. -/
def hourRange (a b : Int) : List Int :=
  (List.range (b + 1 - a).toNat).map (fun i => a + Int.ofNat i)

/-- Method `on_mouse_up`: apply the drag selection to every hour of the
vertical run, inserting on select and removing on deselect. -/
def applyDrag (s : Finset Coord) (day : Int) (h1 h2 : Int) (mode : DragMode) : Finset Coord :=
  (hourRange (min h1 h2) (max h1 h2)).foldl
    (fun st hour =>
      match mode with
      | .select => insert (day, hour) st
      | .deselect => st.erase (day, hour)) s

/-- Single click on a cell: mouse down and mouse up on the same cell. -/
def toggle (s : Finset Coord) (cell : Coord) : Finset Coord :=
  applyDrag s cell.1 cell.2 cell.2 (mouseDownMode s cell)

/-- Registry of the two-participant scenario of the specification. -/
def regAB : Registry :=
  [("A", [(0, 9), (0, 10), (1, 9)]), ("B", [(0, 9), (1, 9), (1, 10)])]

theorem getCount_dictSet (d : List (Coord × Nat)) (c : Coord) (v : Nat) (x : Coord) :
    getCount (dictSet d c v) x = if c = x then v else getCount d x := by
  induction d with
  | nil => by_cases h : c = x <;> simp [dictSet, getCount, h]
  | cons p tl ih =>
    by_cases h : p.1 = c
    · by_cases hx : c = x <;> simp [dictSet, getCount, h, hx]
    · simp only [dictSet, if_neg h, getCount, ih]
      by_cases hx : c = x <;> by_cases hp : p.1 = x <;> simp_all

theorem getCount_dictIncr (d : List (Coord × Nat)) (c x : Coord) :
    getCount (dictIncr d c) x = getCount d x + (if c = x then 1 else 0) := by
  rw [dictIncr, getCount_dictSet]
  split_ifs with h
  · subst h; rfl
  · simp

theorem getCount_foldl_incr (sched : List Coord) (d : List (Coord × Nat)) (x : Coord) :
    getCount (sched.foldl dictIncr d) x = getCount d x + sched.count x := by
  induction sched generalizing d with
  | nil => simp
  | cons a tl ih =>
    have hc : (if (a == x) = true then 1 else 0) = (if a = x then 1 else 0) := by
      by_cases h : a = x <;> simp [h]
    rw [List.foldl_cons, ih, getCount_dictIncr, List.count_cons, hc]
    omega

theorem getCount_overlapCounts (reg : Registry) (x : Coord) :
    getCount (overlapCounts reg) x = tallyCount reg x := by
  suffices h : ∀ (L : Registry) (d : List (Coord × Nat)),
      getCount (L.foldl (fun d p => p.2.foldl dictIncr d) d) x
        = getCount d x + tallyCount L x by
    simpa [overlapCounts, getCount] using h reg []
  intro L
  induction L with
  | nil => intro d; simp [tallyCount]
  | cons p tl ih =>
    intro d
    simp only [List.foldl_cons, ih, getCount_foldl_incr, tallyCount, List.map_cons,
      List.sum_cons]
    omega

theorem keysOf_dictSet (d : List (Coord × Nat)) (c : Coord) (v : Nat) :
    keysOf (dictSet d c v) = if c ∈ keysOf d then keysOf d else keysOf d ++ [c] := by
  induction d with
  | nil => simp [dictSet, keysOf]
  | cons p tl ih =>
    by_cases h : p.1 = c
    · simp [dictSet, keysOf, h]
    · have h' : ¬(c = p.1) := fun e => h e.symm
      simp only [dictSet, if_neg h, keysOf, List.map_cons] at ih ⊢
      rw [ih]
      by_cases hm : c ∈ List.map Prod.fst tl <;>
        simp [hm, h', List.mem_cons]

theorem keysOf_nodup_dictSet (d : List (Coord × Nat)) (c : Coord) (v : Nat)
    (h : (keysOf d).Nodup) : (keysOf (dictSet d c v)).Nodup := by
  rw [keysOf_dictSet]
  split_ifs with hc
  · exact h
  · simp [List.nodup_append, h, hc]

theorem mem_dictSet {d : List (Coord × Nat)} {c : Coord} {v : Nat} :
    ∀ p ∈ dictSet d c v, p = (c, v) ∨ p ∈ d := by
  induction d with
  | nil => simp [dictSet]
  | cons q tl ih =>
    intro p hp
    by_cases h : q.1 = c
    · rw [dictSet, if_pos h] at hp
      rcases List.mem_cons.mp hp with rfl | htl
      · exact Or.inl rfl
      · exact Or.inr (List.mem_cons_of_mem _ htl)
    · rw [dictSet, if_neg h] at hp
      rcases List.mem_cons.mp hp with rfl | htl
      · exact Or.inr (List.mem_cons_self _ _)
      · rcases ih p htl with h1 | h2
        · exact Or.inl h1
        · exact Or.inr (List.mem_cons_of_mem _ h2)

/-- Invariant of the modelled dict: distinct keys, positive counts. -/
def goodDict (d : List (Coord × Nat)) : Prop :=
  (keysOf d).Nodup ∧ ∀ p ∈ d, 0 < p.2

theorem goodDict_dictIncr (d : List (Coord × Nat)) (c : Coord) (h : goodDict d) :
    goodDict (dictIncr d c) := by
  obtain ⟨h1, h2⟩ := h
  refine ⟨keysOf_nodup_dictSet _ _ _ h1, ?_⟩
  intro p hp
  rcases mem_dictSet p hp with rfl | hp'
  · simp
  · exact h2 p hp'

theorem goodDict_foldl_incr (sched : List Coord) (d : List (Coord × Nat))
    (h : goodDict d) : goodDict (sched.foldl dictIncr d) := by
  induction sched generalizing d with
  | nil => simpa
  | cons a tl ih => exact ih _ (goodDict_dictIncr _ _ h)

theorem goodDict_overlapCounts (reg : Registry) : goodDict (overlapCounts reg) := by
  suffices h : ∀ (L : Registry) (d : List (Coord × Nat)), goodDict d →
      goodDict (L.foldl (fun d p => p.2.foldl dictIncr d) d) by
    exact h reg [] ⟨by simp [keysOf], by simp⟩
  intro L
  induction L with
  | nil => intro d hd; simpa
  | cons p tl ih => intro d hd; exact ih _ (goodDict_foldl_incr _ _ hd)

theorem getCount_of_mem {d : List (Coord × Nat)} {x : Coord} {n : Nat}
    (hnd : (keysOf d).Nodup) (h : (x, n) ∈ d) : getCount d x = n := by
  induction d with
  | nil => simp at h
  | cons p tl ih =>
    have hnd' : p.1 ∉ keysOf tl ∧ (keysOf tl).Nodup := by
      simpa [keysOf] using hnd
    rcases List.mem_cons.mp h with rfl | htl
    · simp [getCount]
    · have hx : x ∈ keysOf tl := by
        simpa [keysOf] using List.mem_map_of_mem Prod.fst htl
      have hp : p.1 ≠ x := fun e => hnd'.1 (e ▸ hx)
      rw [getCount, if_neg hp]
      exact ih hnd'.2 htl

theorem exists_mem_of_getCount_pos {d : List (Coord × Nat)} {x : Coord}
    (h : 0 < getCount d x) : ∃ n, (x, n) ∈ d := by
  induction d with
  | nil => simp [getCount] at h
  | cons p tl ih =>
    by_cases hp : p.1 = x
    · subst hp
      exact ⟨p.2, by simp⟩
    · rw [getCount, if_neg hp] at h
      exact (ih h).imp fun n hn => List.mem_cons_of_mem _ hn

theorem tallyCount_cons (p : String × List Coord) (tl : Registry) (c : Coord) :
    tallyCount (p :: tl) c = p.2.count c + tallyCount tl c := by
  simp [tallyCount]

theorem count_eq_ite_of_nodup {l : List Coord} (h : l.Nodup) (c : Coord) :
    l.count c = if c ∈ l then 1 else 0 := by
  induction l with
  | nil => simp
  | cons a tl ih =>
    have h1 : a ∉ tl := (List.nodup_cons.mp h).1
    have h2 := ih (List.nodup_cons.mp h).2
    rw [List.count_cons, h2]
    by_cases hac : a = c
    · subst hac
      simp [List.count_eq_zero_of_not_mem, h1]
    · have hca : ¬(c = a) := fun e => hac e.symm
      simp [hac, hca, List.mem_cons]

theorem tallyCount_nodup (reg : Registry) (c : Coord)
    (hnd : ∀ p ∈ reg, p.2.Nodup) :
    tallyCount reg c = (reg.filter (fun p => decide (c ∈ p.2))).length := by
  induction reg with
  | nil => simp [tallyCount]
  | cons p tl ih =>
    have hp : p.2.Nodup := hnd p (by simp)
    have htl := ih fun q hq => hnd q (List.mem_cons_of_mem _ hq)
    rw [tallyCount_cons, count_eq_ite_of_nodup hp, htl, List.filter_cons]
    by_cases hc : c ∈ p.2 <;> simp [hc] <;> omega

/-- C1: the pure tally computation of `update_overlaps` returns
`total = len(loaded_schedules)` (neither slot count nor count sum), a
per-cell count that adds 1 for every cell of every loaded availability
set, and the empty tally with total 0 on the empty registry. -/
theorem computeTally_correct (reg : Registry) :
    (computeTally reg).2 = reg.length
    ∧ (∀ c, getCount (computeTally reg).1 c = tallyCount reg c)
    ∧ ((∀ p ∈ reg, p.2.Nodup) → ∀ c,
        getCount (computeTally reg).1 c
          = (reg.filter (fun p => decide (c ∈ p.2))).length)
    ∧ computeTally [] = ([], 0) := by
  refine ⟨rfl, fun c => getCount_overlapCounts reg c, ?_, rfl⟩
  intro hnd c
  rw [show (computeTally reg).1 = overlapCounts reg from rfl,
    getCount_overlapCounts]
  exact tallyCount_nodup reg c hnd

theorem computeTally_correct_witness :
    getCount (computeTally regAB).1 (0, 9)
      = (regAB.filter (fun p => decide ((0, 9) ∈ p.2))).length :=
  (computeTally_correct regAB).2.2.1 (by decide) (0, 9)

theorem colorToBand_eq_full : colorToBand "#1B5E20" = CoverageBand.FULL := rfl

theorem colorToBand_eq_high : colorToBand "#4CAF50" = CoverageBand.HIGH := rfl

theorem colorToBand_eq_medium : colorToBand "#8BC34A" = CoverageBand.MEDIUM := rfl

theorem colorToBand_eq_low : colorToBand "#FFEB3B" = CoverageBand.LOW := rfl

theorem colorToBand_eq_minimal : colorToBand "#FFCDD2" = CoverageBand.MINIMAL := rfl

theorem colorToBand_eq_none : colorToBand "white" = CoverageBand.NONE := rfl

/-- C2: the classification is total; it returns NONE exactly when
`total == 0` or `count == 0`, and otherwise bands the exact ratio
`count/total` in the priority order of the code, each band inclusive of
its lower bound - in particular a ratio of exactly 0.25 lands in LOW. -/
theorem classifyCoverage_correct (count total : Nat) :
    ((count = 0 ∨ total = 0) → classifyCoverage count total = CoverageBand.NONE)
    ∧ (count ≠ 0 → total ≠ 0 →
        ((classifyCoverage count total = CoverageBand.FULL ↔
            (count : ℚ) / total = 1)
        ∧ (classifyCoverage count total = CoverageBand.HIGH ↔
            ((count : ℚ) / total ≠ 1 ∧ (3 / 4 : ℚ) ≤ (count : ℚ) / total))
        ∧ (classifyCoverage count total = CoverageBand.MEDIUM ↔
            ((count : ℚ) / total < 3 / 4 ∧ (1 / 2 : ℚ) ≤ (count : ℚ) / total))
        ∧ (classifyCoverage count total = CoverageBand.LOW ↔
            ((count : ℚ) / total < 1 / 2 ∧ (1 / 4 : ℚ) ≤ (count : ℚ) / total))
        ∧ (classifyCoverage count total = CoverageBand.MINIMAL ↔
            (0 < (count : ℚ) / total ∧ (count : ℚ) / total < 1 / 4)))) := by
  constructor
  · intro h
    rcases h with h | h
    · simp [classifyCoverage, get_color_for_count, h, colorToBand_eq_none]
    · by_cases hc : count = 0 <;>
        simp [classifyCoverage, get_color_for_count, h, hc, colorToBand_eq_none]
  · intro hc ht
    have h0 : (0 : ℚ) < (count : ℚ) / total :=
      div_pos (by exact_mod_cast Nat.pos_of_ne_zero hc)
        (by exact_mod_cast Nat.pos_of_ne_zero ht)
    have hrw : classifyCoverage count total
        = colorToBand
            (if (count : ℚ) / total = 1 then "#1B5E20"
             else if (3 / 4 : ℚ) ≤ (count : ℚ) / total then "#4CAF50"
             else if (1 / 2 : ℚ) ≤ (count : ℚ) / total then "#8BC34A"
             else if (1 / 4 : ℚ) ≤ (count : ℚ) / total then "#FFEB3B"
             else "#FFCDD2") := by
      rw [classifyCoverage, get_color_for_count, if_neg hc, if_neg ht]
    rw [hrw]
    split_ifs with h1 h2 h3 h4
    · rw [colorToBand_eq_full]
      refine ⟨iff_of_true rfl h1, iff_of_false (by decide) ?_,
        iff_of_false (by decide) ?_, iff_of_false (by decide) ?_,
        iff_of_false (by decide) ?_⟩
      · exact fun hx => hx.1 h1
      · exact fun hx => by rw [h1] at hx; exact absurd hx.1 (by norm_num)
      · exact fun hx => by rw [h1] at hx; exact absurd hx.1 (by norm_num)
      · exact fun hx => by rw [h1] at hx; exact absurd hx.2 (by norm_num)
    · rw [colorToBand_eq_high]
      refine ⟨iff_of_false (by decide) h1, iff_of_true rfl ⟨h1, h2⟩,
        iff_of_false (by decide) ?_, iff_of_false (by decide) ?_,
        iff_of_false (by decide) ?_⟩
      · exact fun hx => absurd h2 (not_le.2 hx.1)
      · exact fun hx => absurd hx.1 (not_lt.2 (le_trans (by norm_num) h2))
      · exact fun hx => absurd hx.2 (not_lt.2 (le_trans (by norm_num) h2))
    · rw [colorToBand_eq_medium]
      refine ⟨iff_of_false (by decide) ?_, iff_of_false (by decide) ?_,
        iff_of_true rfl ⟨not_le.1 h2, h3⟩, iff_of_false (by decide) ?_,
        iff_of_false (by decide) ?_⟩
      · intro hx; rw [hx] at h2; exact h2 (by norm_num)
      · exact fun hx => h2 hx.2
      · exact fun hx => absurd hx.1 (not_lt.2 h3)
      · exact fun hx => absurd hx.2 (not_lt.2 (le_trans (by norm_num) h3))
    · rw [colorToBand_eq_low]
      refine ⟨iff_of_false (by decide) ?_, iff_of_false (by decide) ?_,
        iff_of_false (by decide) ?_, iff_of_true rfl ⟨not_le.1 h3, h4⟩,
        iff_of_false (by decide) ?_⟩
      · intro hx; rw [hx] at h3; exact h3 (by norm_num)
      · intro hx; exact h3 (le_trans (by norm_num) hx.2)
      · exact fun hx => h3 hx.2
      · exact fun hx => absurd hx.2 (not_lt.2 h4)
    · rw [colorToBand_eq_minimal]
      refine ⟨iff_of_false (by decide) ?_, iff_of_false (by decide) ?_,
        iff_of_false (by decide) ?_, iff_of_false (by decide) ?_,
        iff_of_true rfl ⟨h0, not_le.1 h4⟩⟩
      · intro hx; rw [hx] at h4; exact h4 (by norm_num)
      · intro hx; exact h4 (le_trans (by norm_num) hx.2)
      · intro hx; exact h4 (le_trans (by norm_num) hx.2)
      · exact fun hx => h4 hx.2

theorem classifyCoverage_correct_witness : classifyCoverage 1 4 = CoverageBand.LOW :=
  (((classifyCoverage_correct 1 4).2 (by decide) (by decide)).2.2.2.1).mpr
    (by norm_num)

theorem lexLt_of_lexLe_ne {a b : Coord} (h1 : lexLe a b) (h2 : a ≠ b) : lexLt a b := by
  have h3 : ¬(a.1 = b.1 ∧ a.2 = b.2) := fun e => h2 (Prod.ext_iff.mpr e)
  unfold lexLe at h1
  unfold lexLt
  omega

/-- C3: on a registry-derived tally with a positive total,
`findFullMatches` returns exactly the cells whose count equals the
total, strictly ascending in `(day, hour)`; an empty registry or an
all-zero tally gives the empty list. -/
theorem findFullMatches_correct (reg : Registry) :
    (0 < reg.length →
      (∀ c, c ∈ findFullMatches (overlapCounts reg) reg.length ↔
          tallyCount reg c = reg.length)
      ∧ (findFullMatches (overlapCounts reg) reg.length).Pairwise lexLt)
    ∧ (reg.length = 0 → findFullMatches (overlapCounts reg) reg.length = [])
    ∧ (∀ (tally : List (Coord × Nat)) (total : Nat), 0 < total →
        (∀ p ∈ tally, p.2 = 0) → findFullMatches tally total = [])
    ∧ (∀ total : Nat, findFullMatches [] total = []) := by
  refine ⟨?_, ?_, ?_, fun total => rfl⟩
  · intro hlen
    have hg := goodDict_overlapCounts reg
    constructor
    · intro c
      rw [findFullMatches, sortCoords, List.mem_insertionSort, List.mem_map]
      constructor
      · rintro ⟨p, hp, rfl⟩
        have hpf := List.mem_filter.mp hp
        have hpt : p.2 = reg.length := by simpa using hpf.2
        have hgc : getCount (overlapCounts reg) p.1 = p.2 :=
          getCount_of_mem hg.1 hpf.1
        rw [← getCount_overlapCounts, hgc, hpt]
      · intro hc
        have hgc : getCount (overlapCounts reg) c = reg.length := by
          rw [getCount_overlapCounts]; exact hc
        have hpos : 0 < getCount (overlapCounts reg) c := by omega
        obtain ⟨n, hn⟩ := exists_mem_of_getCount_pos hpos
        have hneq : n = reg.length := by
          have := getCount_of_mem hg.1 hn
          omega
        exact ⟨(c, n), List.mem_filter.mpr ⟨hn, by simp [hneq]⟩, rfl⟩
    · have hs := List.sorted_insertionSort lexLe
        (((overlapCounts reg).filter (fun p => p.2 == reg.length)).map Prod.fst)
      have hsub : List.Sublist
          (((overlapCounts reg).filter (fun p => p.2 == reg.length)).map Prod.fst)
          (keysOf (overlapCounts reg)) :=
        (List.filter_sublist _).map Prod.fst
      have hnd := hg.1.sublist hsub
      have hnd2 := ((List.perm_insertionSort lexLe _).nodup_iff).mpr hnd
      exact (hs.and hnd2).imp fun h => lexLt_of_lexLe_ne h.1 h.2
  · intro h0
    have : reg = [] := List.length_eq_zero.mp h0
    subst this
    rfl
  · intro tally total hpos hz
    have hf : tally.filter (fun p => p.2 == total) = [] := by
      rw [List.filter_eq_nil_iff]
      intro p hp
      have := hz p hp
      simp [this]
      omega
    rw [findFullMatches, hf]
    rfl

theorem findFullMatches_correct_witness :
    (0, 9) ∈ findFullMatches (overlapCounts regAB) regAB.length ↔
      tallyCount regAB (0, 9) = regAB.length :=
  (((findFullMatches_correct regAB).1 (by decide)).1) (0, 9)

theorem roundHalfEven_intCast (n : ℤ) : roundHalfEven (n : ℚ) = n := by
  rw [roundHalfEven]
  norm_num

theorem formatPct_zero : formatPct 0 = "0.0%" := by
  have h0 : (10 * 0 : ℚ) = ((0 : ℤ) : ℚ) := by norm_num
  rw [formatPct, h0, roundHalfEven_intCast]
  decide

theorem analysisRows_map_coords (reg : Registry) :
    (analysisRows reg).map (fun r => (r.day, r.hour)) = allCells := by
  simp [analysisRows, allCells, List.map_flatMap, Function.comp]

theorem mem_analysisRows {reg : Registry} {r : AnalysisRow}
    (h : r ∈ analysisRows reg) :
    r.available_count = tallyCount reg (r.day, r.hour)
    ∧ r.total_participants = reg.length
    ∧ r.percentage
        = formatPct (if 0 < reg.length then
            (r.available_count : ℚ) / reg.length * 100 else 0) := by
  simp only [analysisRows, List.mem_flatMap, List.mem_map] at h
  obtain ⟨day, hday, hour, hhour, rfl⟩ := h
  exact ⟨getCount_overlapCounts reg _, rfl, rfl⟩

/-- C4 (amended): for a loaded registry the analysis export emits
exactly 77 data rows, one per grid cell including zero-count cells, in
day-major hour-minor order, each carrying the tally count, the
participant total and the percentage `count/total*100` formatted to one
decimal with a trailing percent sign; with zero loaded participants the
export is refused with a warning, and the row formatter at total 0
yields count 0 and percentage `0.0%` for every cell. -/
theorem export_analysis_correct (reg : Registry) :
    (reg ≠ [] → export_analysis reg = some (analysisRows reg))
    ∧ export_analysis [] = none
    ∧ (analysisRows reg).length = 77
    ∧ (analysisRows reg).map (fun r => (r.day, r.hour)) = allCells
    ∧ allCells.Pairwise lexLt
    ∧ (∀ r ∈ analysisRows reg,
        r.available_count = tallyCount reg (r.day, r.hour)
        ∧ r.total_participants = reg.length
        ∧ r.percentage
            = formatPct (if 0 < reg.length then
                (r.available_count : ℚ) / reg.length * 100 else 0))
    ∧ (∀ r ∈ analysisRows ([] : Registry),
        r.available_count = 0 ∧ r.percentage = "0.0%") := by
  refine ⟨?_, rfl, ?_, analysisRows_map_coords reg, by decide,
    fun r hr => mem_analysisRows hr, ?_⟩
  · intro h
    rw [export_analysis, if_neg (by simpa [List.isEmpty_iff] using h)]
  · have h1 := congrArg List.length (analysisRows_map_coords reg)
    rw [List.length_map] at h1
    rw [h1]
    decide
  · intro r hr
    obtain ⟨h1, h2, h3⟩ := mem_analysisRows hr
    have hz : tallyCount ([] : Registry) (r.day, r.hour) = 0 := rfl
    refine ⟨by rw [h1, hz], ?_⟩
    rw [h3, if_neg (by simp), formatPct_zero]

theorem export_analysis_correct_witness :
    export_analysis regAB = some (analysisRows regAB) :=
  (export_analysis_correct regAB).1 (by decide)

/-- C4 counterexample: running the analysis export with zero loaded
participants produces no rows at all - the code refuses with the
warning `No schedules loaded.` instead of emitting 77 rows. -/
theorem export_analysis_empty_refused :
    export_analysis [] = none ∧ ∀ rows, export_analysis [] ≠ some rows :=
  ⟨rfl, fun _ h => Option.noConfusion h⟩

theorem hourRange_single (h : Int) : hourRange h h = [h] := by
  rw [hourRange, show h + 1 - h = 1 by omega,
    show ((1 : ℤ)).toNat = 1 from rfl,
    show List.range 1 = [0] from rfl, List.map_cons, List.map_nil]
  simp

theorem toggle_eq (s : Finset Coord) (cell : Coord) :
    toggle s cell = if cell ∈ s then s.erase cell else insert cell s := by
  rw [toggle, mouseDownMode]
  by_cases h : cell ∈ s
  · rw [if_pos h, if_pos h, applyDrag, min_self, max_self, hourRange_single]
    rfl
  · rw [if_neg h, if_neg h, applyDrag, min_self, max_self, hourRange_single]
    rfl

/-- C8: a single click removes a selected cell and inserts a deselected
one, so for every availability set and valid grid cell two consecutive
clicks on that cell leave the set unchanged. -/
theorem toggle_toggle_id (s : Finset Coord) (cell : Coord)
    (hv : validCoord cell) :
    toggle (toggle s cell) cell = s ∧
      toggle s cell = if cell ∈ s then s.erase cell else insert cell s := by
  refine ⟨?_, toggle_eq s cell⟩
  rw [toggle_eq, toggle_eq]
  by_cases h : cell ∈ s
  · simp [h, Finset.not_mem_erase, Finset.insert_erase]
  · simp [h, Finset.erase_insert]

theorem toggle_toggle_id_witness :
    toggle (toggle (∅ : Finset Coord) (0, 9)) (0, 9) = ∅ :=
  (toggle_toggle_id ∅ (0, 9) (by decide)).1

/-- C9: a file with a header but zero data rows fails the
`if username and schedule` guard, contributes nothing, raises nothing,
and leaves a batch import as if the file were absent. -/
theorem emptyFile_skipped :
    (∀ (reg : Registry) (base : String), loadFile reg ⟨base, []⟩ = reg)
    ∧ ∀ (reg : Registry) (fs1 fs2 : List InFile) (base : String),
        loadFiles reg (fs1 ++ ⟨base, []⟩ :: fs2) = loadFiles reg (fs1 ++ fs2) := by
  have h1 : ∀ (reg : Registry) (base : String), loadFile reg ⟨base, []⟩ = reg :=
    fun reg base => rfl
  refine ⟨h1, ?_⟩
  intro reg fs1 fs2 base
  rw [loadFiles, loadFiles, List.foldl_append, List.foldl_append, List.foldl_cons,
    h1]

/-- C7 evidence: the import loop parses `day` and `hour` with no range
check, so a row with day 42 is neither rejected nor ignored - the
off-grid coordinate (42, 9) lands in the loaded availability set. -/
theorem out_of_range_admitted :
    loadFiles [] [⟨"sched", [⟨some "Alice", 42, 9⟩]⟩] = [("Alice", [(42, 9)])]
    ∧ ¬ validCoord (42, 9) := by
  constructor
  · decide
  · decide

/-- Reinterpretation of an exported row by the import parser. -/
def srowToInRow (r : SRow) : InRow :=
  { username := some r.username, day := r.day, hour := r.hour }

/-- C6: exporting a non-empty availability set and importing the rows
back yields the same set of coordinates. -/
theorem export_import_roundtrip (S : List Coord) (username base : String)
    (hS : S ≠ []) (hu : username ≠ "") :
    ∃ out, parseFile base ((export_schedule username (sortCoords S)).map srowToInRow)
        = some (username, out)
      ∧ ∀ c, c ∈ out ↔ c ∈ S := by
  have hne : sortCoords S ≠ [] := by
    intro h
    apply hS
    have hlen := (List.perm_insertionSort lexLe S).length_eq
    rw [sortCoords] at h
    rw [h] at hlen
    exact List.length_eq_zero.mp hlen.symm
  cases hsc : sortCoords S with
  | nil => exact absurd hsc hne
  | cons c0 tl =>
    refine ⟨((export_schedule username (c0 :: tl)).map srowToInRow).map
        (fun r => (r.day, r.hour)), ?_, ?_⟩
    · rw [export_schedule, List.map_cons, List.map_cons]
      simp only [parseFile, srowToInRow, Option.getD_some]
      rw [if_neg hu]
    · have hiff : ∀ x : Coord,
          x ∈ ((export_schedule username (c0 :: tl)).map srowToInRow).map
              (fun r => (r.day, r.hour)) ↔ x ∈ c0 :: tl := by
        intro x
        simp [export_schedule, srowToInRow, List.mem_map]
      intro c
      rw [hiff c, ← hsc, sortCoords, List.mem_insertionSort]

theorem export_import_roundtrip_witness :
    ∃ out, parseFile "f" ((export_schedule "Alice"
          (sortCoords [((0 : Int), (9 : Int))])).map srowToInRow)
        = some ("Alice", out)
      ∧ ∀ c, c ∈ out ↔ c ∈ [((0 : Int), (9 : Int))] :=
  export_import_roundtrip [((0 : Int), (9 : Int))] "Alice" "f" (by decide)
    (by decide)

theorem parseFile_sched {base : String} {rows : List InRow} {n : String}
    {s : List Coord} (h : parseFile base rows = some (n, s)) :
    s = rows.map (fun r => (r.day, r.hour)) := by
  cases rows with
  | nil => simp [parseFile] at h
  | cons r0 tl =>
    simp only [parseFile] at h
    by_cases h1 : r0.username.getD base = ""
    · rw [if_pos h1] at h
      exact Option.noConfusion h
    · rw [if_neg h1] at h
      simp only [Option.some.injEq, Prod.mk.injEq] at h
      exact h.2.symm

theorem loadFile_schedules {reg : Registry} {f : InFile} {p : String × List Coord}
    (hp : p ∈ loadFile reg f) :
    p ∈ reg ∨ p.2 = f.rows.map (fun r => (r.day, r.hour)) := by
  cases hpf : parseFile f.basename f.rows with
  | none =>
    rw [loadFile, hpf] at hp
    exact Or.inl hp
  | some pr =>
    obtain ⟨name, sched⟩ := pr
    rw [loadFile, hpf] at hp
    rcases List.mem_append.mp hp with h | h
    · exact Or.inl h
    · right
      have hps : p = (freshName (reg.map Prod.fst) name, sched) := by simpa using h
      rw [hps, parseFile_sched hpf]

theorem loadFiles_schedules_nodup (fs : List InFile)
    (hf : ∀ f ∈ fs, (f.rows.map (fun r => (r.day, r.hour))).Nodup) :
    ∀ p ∈ loadFiles [] fs, p.2.Nodup := by
  suffices h : ∀ (gs : List InFile) (reg : Registry),
      (∀ f ∈ gs, (f.rows.map (fun r => (r.day, r.hour))).Nodup) →
      (∀ p ∈ reg, p.2.Nodup) → ∀ p ∈ loadFiles reg gs, p.2.Nodup by
    exact fun p hp => h fs [] hf (by simp) p hp
  intro gs
  induction gs with
  | nil =>
    intro reg _ hreg p hp
    exact hreg p (by simpa [loadFiles] using hp)
  | cons f tl ih =>
    intro reg hfs hreg p hp
    rw [loadFiles, List.foldl_cons] at hp
    refine ih _ (fun g hg => hfs g (List.mem_cons_of_mem _ hg)) ?_ p hp
    intro q hq
    rcases loadFile_schedules hq with h | h
    · exact hreg q h
    · rw [h]
      exact hfs f (by simp)

theorem tallyCount_le_of_nodup (reg : Registry) (c : Coord)
    (h : ∀ p ∈ reg, p.2.Nodup) : tallyCount reg c ≤ reg.length := by
  induction reg with
  | nil => simp [tallyCount]
  | cons p tl ih =>
    rw [tallyCount_cons]
    have h1 : p.2.count c ≤ 1 := by
      rw [count_eq_ite_of_nodup (h p (by simp))]
      split <;> omega
    have h2 := ih fun q hq => h q (List.mem_cons_of_mem _ hq)
    simp only [List.length_cons]
    omega

/-- C10 (amended): when every imported file lists each slot at most
once, the tally count at each cell is bounded by the participant total;
a duplicated `(day, hour)` row, however, is counted once per occurrence,
so the bound can fail (see the counterexample). -/
theorem tally_le_total_of_nodup_rows (fs : List InFile) (c : Coord)
    (hf : ∀ f ∈ fs, (f.rows.map (fun r => (r.day, r.hour))).Nodup) :
    getCount (computeTally (loadFiles [] fs)).1 c
      ≤ (computeTally (loadFiles [] fs)).2 := by
  rw [show (computeTally (loadFiles [] fs)).1 = overlapCounts (loadFiles [] fs)
      from rfl, getCount_overlapCounts]
  exact tallyCount_le_of_nodup _ c (loadFiles_schedules_nodup fs hf)

theorem tally_le_total_witness :
    getCount (computeTally (loadFiles []
        [⟨"f1", [⟨some "Alice", 0, 9⟩]⟩])).1 (0, 9)
      ≤ (computeTally (loadFiles [] [⟨"f1", [⟨some "Alice", 0, 9⟩]⟩])).2 :=
  tally_le_total_of_nodup_rows [⟨"f1", [⟨some "Alice", 0, 9⟩]⟩] (0, 9)
    (by decide)

/-- Decimal digit list of a natural number, the fuel-free rendering of
`Nat.toDigitsCore` at base 10. -/
def decDigits (n : Nat) : List Char :=
  if h : n / 10 = 0 then [Nat.digitChar (n % 10)]
  else decDigits (n / 10) ++ [Nat.digitChar (n % 10)]
  decreasing_by omega

theorem toDigitsCore_eq : ∀ (fuel n : Nat) (ds : List Char), n < fuel →
    Nat.toDigitsCore 10 fuel n ds = decDigits n ++ ds := by
  intro fuel
  induction fuel with
  | zero => intro n ds h; omega
  | succ f ih =>
    intro n ds h
    simp only [Nat.toDigitsCore]
    by_cases h0 : n / 10 = 0
    · rw [if_pos h0, decDigits, dif_pos h0]
      rfl
    · rw [if_neg h0, decDigits, dif_neg h0]
      have hlt : n / 10 < f := by omega
      rw [ih (n / 10) (Nat.digitChar (n % 10) :: ds) hlt, List.append_assoc,
        List.singleton_append]

theorem toDigits_eq (n : Nat) : Nat.toDigits 10 n = decDigits n := by
  rw [Nat.toDigits, toDigitsCore_eq (n + 1) n [] (by omega), List.append_nil]

/-- Value of a decimal digit string under a left accumulator. -/
def digitsVal (a : Nat) (l : List Char) : Nat :=
  l.foldl (fun x c => 10 * x + (c.toNat - 48)) a

theorem digitChar_val : ∀ d, d < 10 → (Nat.digitChar d).toNat - 48 = d := by
  decide

theorem digitsVal_decDigits (a n : Nat) :
    digitsVal a (decDigits n) = a * 10 ^ (decDigits n).length + n := by
  induction n using Nat.strong_induction_on generalizing a with
  | _ n ih =>
    by_cases h0 : n / 10 = 0
    · have hn : n < 10 := by omega
      have hm : n % 10 = n := Nat.mod_eq_of_lt hn
      rw [decDigits, dif_pos h0, hm]
      show 10 * a + ((Nat.digitChar n).toNat - 48) = a * 10 ^ 1 + n
      rw [digitChar_val n hn, pow_one]
      omega
    · rw [decDigits, dif_neg h0]
      have hlt : n / 10 < n := by omega
      rw [digitsVal, List.foldl_append]
      rw [show (decDigits (n / 10)).foldl (fun x c => 10 * x + (c.toNat - 48)) a
          = digitsVal a (decDigits (n / 10)) from rfl]
      rw [ih (n / 10) hlt a]
      simp only [List.foldl_cons, List.foldl_nil, List.length_append,
        List.length_singleton]
      rw [digitChar_val (n % 10) (by omega)]
      have hL : a * 10 ^ ((decDigits (n / 10)).length + 1)
          = a * 10 ^ (decDigits (n / 10)).length * 10 := by ring
      rw [hL]
      omega

theorem decDigits_injective : Function.Injective decDigits := by
  intro m n h
  have hm := digitsVal_decDigits 0 m
  have hn := digitsVal_decDigits 0 n
  rw [h] at hm
  omega

theorem natRepr_injective : Function.Injective Nat.repr := by
  intro m n h
  rw [Nat.repr, Nat.repr, toDigits_eq, toDigits_eq] at h
  exact decDigits_injective (congrArg String.data h)

theorem cand_injective (base : String) : Function.Injective (cand base) := by
  intro j k h
  rw [cand, cand] at h
  have hd := congrArg String.data h
  simp only [String.data_append, List.append_assoc,
    List.append_cancel_left_eq] at hd
  exact natRepr_injective (String.ext hd)

theorem freshLoop_spec (keys : List String) (base : String) :
    ∀ (fuel counter : Nat),
      (∃ k, counter ≤ k ∧ k < counter + fuel ∧ cand base k ∉ keys) →
      ∃ k, counter ≤ k ∧ cand base k ∉ keys
        ∧ freshLoop keys base counter fuel = cand base k
        ∧ ∀ j, counter ≤ j → j < k → cand base j ∈ keys := by
  intro fuel
  induction fuel with
  | zero =>
    rintro counter ⟨k, h1, h2, -⟩
    omega
  | succ f ih =>
    rintro counter ⟨k, h1, h2, h3⟩
    by_cases hc : cand base counter ∈ keys
    · have hk : counter + 1 ≤ k := by
        have hne : k ≠ counter := fun e => h3 (e ▸ hc)
        omega
      obtain ⟨q, hq1, hq2, hq3, hq4⟩ := ih (counter + 1) ⟨k, hk, by omega, h3⟩
      refine ⟨q, by omega, hq2, ?_, ?_⟩
      · rw [show freshLoop keys base counter (f + 1)
            = freshLoop keys base (counter + 1) f by
              simp only [freshLoop, if_pos hc]]
        exact hq3
      · intro j hj1 hj2
        by_cases hjc : j = counter
        · exact hjc ▸ hc
        · exact hq4 j (by omega) hj2
    · refine ⟨counter, le_refl _, hc, ?_, fun j hj1 hj2 => absurd hj2 (by omega)⟩
      simp only [freshLoop, if_neg hc]

theorem freshName_fresh (keys : List String) (name : String) :
    freshName keys name ∉ keys
    ∧ (name ∉ keys → freshName keys name = name)
    ∧ (name ∈ keys → ∃ k, 1 ≤ k ∧ cand name k ∉ keys
        ∧ freshName keys name = cand name k
        ∧ ∀ j, 1 ≤ j → j < k → cand name j ∈ keys) := by
  by_cases h : name ∈ keys
  · have hex : ∃ k, 1 ≤ k ∧ k < 1 + (keys.length + 1) ∧ cand name k ∉ keys := by
      by_contra hall
      push_neg at hall
      have hsub : ∀ x ∈ (List.range (keys.length + 1)).map
          (fun i => cand name (i + 1)), x ∈ keys := by
        intro x hx
        simp only [List.mem_map, List.mem_range] at hx
        obtain ⟨i, hi, rfl⟩ := hx
        exact hall (i + 1) (by omega) (by omega)
      have hinj : Function.Injective (fun i => cand name (i + 1)) := by
        intro a b hab
        have := cand_injective name hab
        omega
      have hnd : ((List.range (keys.length + 1)).map
          (fun i => cand name (i + 1))).Nodup :=
        (List.nodup_range _).map hinj
      have hle := (List.subperm_of_subset hnd hsub).length_le
      simp only [List.length_map, List.length_range] at hle
      omega
    obtain ⟨k0, hk01, hk02, hk03⟩ := hex
    obtain ⟨q, hq1, hq2, hq3, hq4⟩ :=
      freshLoop_spec keys name (keys.length + 1) 1 ⟨k0, hk01, by omega, hk03⟩
    rw [freshName, if_pos h]
    refine ⟨?_, fun hn => absurd h hn, fun _ => ⟨q, hq1, hq2, hq3, hq4⟩⟩
    rw [hq3]
    exact hq2
  · rw [freshName, if_neg h]
    exact ⟨h, fun _ => rfl, fun hn => absurd hn h⟩

theorem loadFile_spec (reg : Registry) (f : InFile)
    (hnd : (reg.map Prod.fst).Nodup) :
    (∀ p ∈ reg, p ∈ loadFile reg f)
    ∧ ((loadFile reg f).map Prod.fst).Nodup
    ∧ ∀ name sched, parseFile f.basename f.rows = some (name, sched) →
        name ∈ reg.map Prod.fst →
        ∃ k, 1 ≤ k ∧ cand name k ∉ reg.map Prod.fst
          ∧ (∀ j, 1 ≤ j → j < k → cand name j ∈ reg.map Prod.fst)
          ∧ loadFile reg f = reg ++ [(cand name k, sched)] := by
  cases hp : parseFile f.basename f.rows with
  | none =>
    rw [loadFile, hp]
    exact ⟨fun p hp2 => hp2, hnd, fun name sched heq => Option.noConfusion heq⟩
  | some pr =>
    obtain ⟨name0, sched0⟩ := pr
    rw [loadFile, hp]
    have hfr := freshName_fresh (reg.map Prod.fst) name0
    refine ⟨fun p hp2 => List.mem_append_left _ hp2, ?_, ?_⟩
    · simp [List.nodup_append, hnd, hfr.1]
    · intro name sched heq hmem
      have hps : name0 = name ∧ sched0 = sched := by simpa using heq
      obtain ⟨rfl, rfl⟩ := hps
      obtain ⟨k, hk1, hk2, hk3, hk4⟩ := hfr.2.2 hmem
      refine ⟨k, hk1, hk2, hk4, ?_⟩
      show reg ++ [(freshName (List.map Prod.fst reg) name0, sched0)]
          = reg ++ [(cand name0 k, sched0)]
      rw [hk3]

/-- C5: registry keys stay unique over every import sequence; a load
never overwrites an existing entry - on a name collision the new entry
is appended under the first unused of `base_1, base_2, ...`; loading
two files that both carry username Alice yields the keys Alice and
Alice_1 in load order. -/
theorem registry_keys_unique :
    (∀ fs : List InFile, ((loadFiles [] fs).map Prod.fst).Nodup)
    ∧ (∀ (reg : Registry) (f : InFile), (reg.map Prod.fst).Nodup →
        (∀ p ∈ reg, p ∈ loadFile reg f)
        ∧ ((loadFile reg f).map Prod.fst).Nodup
        ∧ ∀ name sched, parseFile f.basename f.rows = some (name, sched) →
            name ∈ reg.map Prod.fst →
            ∃ k, 1 ≤ k ∧ cand name k ∉ reg.map Prod.fst
              ∧ (∀ j, 1 ≤ j → j < k → cand name j ∈ reg.map Prod.fst)
              ∧ loadFile reg f = reg ++ [(cand name k, sched)])
    ∧ (loadFiles [] [⟨"f1", [⟨some "Alice", 0, 9⟩]⟩,
        ⟨"f2", [⟨some "Alice", 1, 9⟩]⟩]).map Prod.fst = ["Alice", "Alice_1"] := by
  have hgen : ∀ (fs : List InFile) (reg : Registry), (reg.map Prod.fst).Nodup →
      ((loadFiles reg fs).map Prod.fst).Nodup := by
    intro fs
    induction fs with
    | nil => intro reg h; simpa [loadFiles]
    | cons f tl ih =>
      intro reg h
      rw [loadFiles, List.foldl_cons]
      exact ih (loadFile reg f) (loadFile_spec reg f h).2.1
  exact ⟨fun fs => hgen fs [] (by simp),
    fun reg f h => loadFile_spec reg f h, by decide⟩

theorem registry_keys_unique_witness :
    ∃ k, 1 ≤ k
      ∧ cand "Alice" k ∉
          ([("Alice", [((0 : Int), (9 : Int))])] : Registry).map Prod.fst
      ∧ (∀ j, 1 ≤ j → j < k → cand "Alice" j ∈
          ([("Alice", [((0 : Int), (9 : Int))])] : Registry).map Prod.fst)
      ∧ loadFile [("Alice", [((0 : Int), (9 : Int))])]
            ⟨"f2", [⟨some "Alice", 1, 9⟩]⟩
          = [("Alice", [((0 : Int), (9 : Int))])]
            ++ [(cand "Alice" k, [((1 : Int), (9 : Int))])] :=
  ((registry_keys_unique.2.1 [("Alice", [((0 : Int), (9 : Int))])]
      ⟨"f2", [⟨some "Alice", 1, 9⟩]⟩ (by decide)).2.2)
    "Alice" [((1 : Int), (9 : Int))] (by decide) (by decide)

/-- C10 counterexample: one imported file listing the slot (0, 9) twice
gives that slot a count of 2 while the registry holds a single
participant, so the count exceeds the total. -/
theorem duplicate_rows_overcount :
    getCount (computeTally (loadFiles []
        [⟨"dup", [⟨some "Ann", 0, 9⟩, ⟨some "Ann", 0, 9⟩]⟩])).1 (0, 9) = 2
    ∧ (computeTally (loadFiles []
        [⟨"dup", [⟨some "Ann", 0, 9⟩, ⟨some "Ann", 0, 9⟩]⟩])).2 = 1
    ∧ ¬(getCount (computeTally (loadFiles []
        [⟨"dup", [⟨some "Ann", 0, 9⟩, ⟨some "Ann", 0, 9⟩]⟩])).1 (0, 9)
        ≤ (computeTally (loadFiles []
        [⟨"dup", [⟨some "Ann", 0, 9⟩, ⟨some "Ann", 0, 9⟩]⟩])).2) := by
  decide

end Planner
